import Mathlib

/-!
Verification of the `zmanian/cothority` sources against their specification.

Part 1 models the Merkle proof utility (`proof` package: `hashNode`,
`Proof.Calc`, `Proof.Check`, `ProofTree`, `MerkleGet`).
Part 2 models the randomness server (`app/rand/srv.go`: `Server.serve`).

Bytes are modelled as `List Nat` (one entry per byte; the byte range is
irrelevant to every claim).  Fallible operations return `Except`.
-/

/-- A byte string (Go `[]byte` / `hashid.HashId`). -/
abbrev Bytes := List Nat

/-- Go `bytes.Compare`: lexicographic comparison of byte strings,
a strict prefix compares less than the longer string. -/
def byteCompare : Bytes → Bytes → Ordering
  | [], [] => .eq
  | [], _ :: _ => .lt
  | _ :: _, [] => .gt
  | a :: as, b :: bs =>
    if a < b then .lt else if b < a then .gt else byteCompare as bs

/-- `hashContext.hashNode`: sorts the two children with `bytes.Compare`,
hashes their concatenation and appends the digest to `buf`
(`h.Write(left); h.Write(right); h.Sum(buf)`).
The underlying `hash.Hash` is modelled by the pure digest function `H`. -/
def hashNode (H : Bytes → Bytes) (buf left right : Bytes) : Bytes :=
  if byteCompare left right = .gt then buf ++ H (right ++ left)
  else buf ++ H (left ++ right)

/-- A `Proof` is a list of sibling hashes from just below the root down to
the leaf level (`type Proof []hashid.HashId`). -/
abbrev Proof := List Bytes

/-- `Proof.Calc`: recompute the root from a leaf, folding `hashNode` over the
proof entries from the last entry (leaf level) up to the first (root level).
Each Go iteration calls `hashNode(buf[:0], leaf, p[i])`, i.e. appends the
digest to an empty buffer. -/
def Proof.Calc (H : Bytes → Bytes) (p : Proof) (leaf : Bytes) : Bytes :=
  p.reverse.foldl (fun acc x => hashNode H [] acc x) leaf

/-- Go `subtle.ConstantTimeCompare`: 0 when the lengths differ or any byte
differs, 1 when the strings are equal. -/
def constantTimeCompare (x y : Bytes) : Nat :=
  if x.length ≠ y.length then 0 else if x = y then 1 else 0

/-- `Proof.Check`: recompute the root via `Calc` and compare with
`subtle.ConstantTimeCompare` (true iff the comparison returns nonzero). -/
def Proof.Check (H : Bytes → Bytes) (p : Proof) (root leaf : Bytes) : Bool :=
  constantTimeCompare (Proof.Calc H p leaf) root != 0

/-- `sibling(i)`: the index sharing a parent with `i`
(`if i&1 == 1 { return i - 1 }; return i + 1`). -/
def sibling (i : Nat) : Nat :=
  if i % 2 = 1 then i - 1 else i + 1

/-- One level of the Merkle-tree build loop:
`tnext[i] = c.hashNode(nil, tprev[i*2], tprev[i*2+1])` for `i < nprev >> 1`.
(When `nprev` is odd the Go code allocates one extra slot and leaves it
`nil`; here a level is just the list of computed nodes, so that slot is
the absent entry past the end of the list.) -/
def levelUp (H : Bytes → Bytes) : List Bytes → List Bytes
  | a :: b :: rest => hashNode H [] a b :: levelUp H rest
  | _ => []

/-- `d` applications of `levelUp`: the tree level `d` steps above the given
one.  Go's `tree[j]` (with `tree[depth]` the padded leaves) is
`iterLevel H (depth - j) padded`. -/
def iterLevel (H : Bytes → Bytes) : Nat → List Bytes → List Bytes
  | 0, l => l
  | d + 1, l => iterLevel H d (levelUp H l)

/-- The depth loop of `ProofTree`:
`for n := 1; n < nleaves; n <<= 1 { depth++ }`.
The guard `0 < n` only serves termination; the loop is entered with
`n = 1` and `n` only doubles, so it never affects the result. -/
def depthGo (m : Nat) (n : Nat) (depth : Nat) : Nat :=
  if h : 0 < n ∧ n < m then depthGo m (n <<< 1) (depth + 1) else depth
termination_by m - n
decreasing_by
  simp only [Nat.shiftLeft_eq, Nat.pow_one]
  omega

/-- The tree depth computed by `ProofTree` for `m` leaves. -/
def treeDepth (m : Nat) : Nat := depthGo m 1 0

/-- The proof for leaf `i` extracted from the tree:
entries `tree[depth-d][sibling(i >> d)]` for `d = depth-1` down to `0`,
skipping absent (`nil`) entries (`if h != nil { p = append(p, h) }`). -/
def proofFor (H : Bytes → Bytes) (depth i : Nat) (padded : List Bytes) :
    Proof :=
  ((List.range depth).reverse.map
    (fun d => (iterLevel H d padded).get? (sibling (i >>> d)))).filterMap id

/-- `ProofTree`: pad the leaves with zero-filled digests up to the next
power of two, build the tree level by level, return the root and one proof
per original leaf (`proofs[:nleavesArg]`).  `H` models the digest function
of `newHash` and `hashSize` models `newHash().Size()`. -/
def ProofTree (H : Bytes → Bytes) (hashSize : Nat) (leaves : List Bytes) :
    Bytes × List Proof :=
  if leaves.isEmpty then ([], [])
  else
    let nleavesArg := leaves.length
    let depth := treeDepth nleavesArg
    let nleaves := 2 ^ depth
    let padded := leaves ++
      List.replicate (nleaves - nleavesArg) (List.replicate hashSize 0)
    let root := (iterLevel H depth padded).headD []
    let proofs :=
      ((List.range nleaves).map (fun i => proofFor H depth i padded)).take
        nleavesArg
    (root, proofs)

/-- Two's-complement wrap into the signed 64-bit range
`[-9223372036854775808, 9223372036854775808)` (= `[-2^63, 2^63)`): the
value a Go `int` holds after an overflowing operation. -/
def wrap64 (x : Int) : Int :=
  (x + 9223372036854775808) % 18446744073709551616 - 9223372036854775808

/-- Go 64-bit `int` addition: mathematical addition followed by the
two's-complement wrap (Go signed arithmetic wraps on overflow). -/
def intAdd64 (a b : Int) : Int :=
  wrap64 (a + b)

/-- `MerklePath` (`Ptr`, `Ofs`, `Len`).  The Go fields are `int`,
modelled as mathematical integers whose additions go through
`intAdd64`, so overflow behaves as in Go. -/
structure MerklePath where
  Ptr : List Int
  Ofs : Int
  Len : Int
deriving DecidableEq

/-- Errors of `MerkleGet`: either an ordinary Go `error` value, or the
marker `oob` for an out-of-range slice expression (on which Go would
panic rather than return). -/
inductive MErr where
  | msg : String → MErr
  | oob : MErr
deriving DecidableEq

/-- A Go slice expression `blob[beg:e]`: out of range (a panic, `oob`)
unless `0 ≤ beg ≤ e ≤ len(blob)`. -/
def goSlice (blob : Bytes) (beg e : Int) : Except MErr Bytes :=
  if 0 ≤ beg ∧ beg ≤ e ∧ e ≤ (blob.length : Int) then
    .ok ((blob.drop beg.toNat).take (e - beg).toNat)
  else .error .oob

/-- The pointer-following loop of `MerkleGet`: for each `beg` in `path.Ptr`,
compute `end := beg + 256` in Go `int` arithmetic, check
`end > len(blob)`, slice out the hash id, and look up the next-level
blob via `ctx.Get`. -/
def merkleGetPtrs (ctx : Bytes → Except String Bytes) :
    List Int → Bytes → Except MErr Bytes
  | [], blob => .ok blob
  | beg :: rest, blob =>
    let e := intAdd64 beg 256
    if e > (blob.length : Int) then
      .error (.msg "bad Merkle tree pointer offset")
    else
      match goSlice blob beg e with
      | .error err => .error err
      | .ok id =>
        match ctx id with
        | .error s => .error (.msg s)
        | .ok b => merkleGetPtrs ctx rest b

/-- `MerkleGet`: follow the hash pointers from the root blob, then
compute `end := path.Ofs + path.Len` in Go `int` arithmetic, validate
`end > len(blob)` and extract the object window `blob[path.Ofs:end]`. -/
def MerkleGet (ctx : Bytes → Except String Bytes) (root : Bytes)
    (path : MerklePath) : Except MErr Bytes :=
  match merkleGetPtrs ctx path.Ptr root with
  | .error e => .error e
  | .ok blob =>
    let e := intAdd64 path.Ofs path.Len
    if e > (blob.length : Int) then
      .error (.msg "bad Merkle tree object offset/length")
    else goSlice blob path.Ofs e

/-!
Part 2: the randomness server `Server.serve` (`app/rand/srv.go`).

The message structs carry exactly the fields `serve` reads or writes.
The cryptographic collaborators (`abstract.Suite` hashing, the
`poly.Promise` VSS engine, `sigEncode`/`sigDecode` authentication and
`pickInsurers`) live outside the given source tree; they are modelled as
opaque function-valued fields of `Env`, faithful to how `serve` calls
them.  `Conn` provides the byte strings successive `Recv` calls return
and the error state of successive `Send` calls.
-/

/-- I1: the client's seed commitment. -/
structure I1 where
  HRc : Bytes
deriving DecidableEq

/-- R1: the server's seed commitment. -/
structure R1 where
  HRs : Bytes
deriving DecidableEq

/-- I2: the client's revealed seed. -/
structure I2 where
  Rc : Bytes
deriving DecidableEq

/-- R2: the server's revealed seed and its marshalled deal. -/
structure R2 where
  Rs : Bytes
  Deal : Bytes
deriving DecidableEq

/-- I3: one (possibly empty) signed R2 blob per roster slot. -/
structure I3 where
  R2s : List Bytes
deriving DecidableEq

/-- One entry of R3: dealer index, share index and marshalled response. -/
structure R3Resp where
  Dealer : Nat
  Index : Nat
  Resp : Bytes
deriving DecidableEq

/-- R3: the server's responses for shares dealt to it. -/
structure R3 where
  Resp : List R3Resp
deriving DecidableEq

/-- I4: one (possibly empty) signed R2 blob per roster slot, required to
be a byte-subset of the I3 array. -/
structure I4 where
  R2s : List Bytes
deriving DecidableEq

/-- One entry of R4: dealer index, share index and the revealed share. -/
structure R4Share where
  Dealer : Nat
  Index : Nat
  Share : Bytes
deriving DecidableEq

/-- R4: every share the server retained during round 3. -/
structure R4 where
  Shares : List R4Share
deriving DecidableEq

/-- One observable protocol event of a `serve` session: a successfully
received-and-decoded inbound message, or an outbound message handed to
`conn.Send`. -/
inductive Event where
  | recvI1 : I1 → Event
  | sendR1 : R1 → Event
  | recvI2 : I2 → Event
  | sendR2 : R2 → Event
  | recvI3 : I3 → Event
  | sendR3 : R3 → Event
  | recvI4 : I4 → Event
  | sendR4 : R4 → Event
deriving DecidableEq

/-- The message kind of an event, for order-of-rounds statements. -/
inductive EKind where
  | kI1 | kR1 | kI2 | kR2 | kI3 | kR3 | kI4 | kR4
deriving DecidableEq

/-- Forget an event's payload. -/
def Event.kind : Event → EKind
  | .recvI1 _ => .kI1
  | .sendR1 _ => .kR1
  | .recvI2 _ => .kI2
  | .sendR2 _ => .kR2
  | .recvI3 _ => .kI3
  | .sendR3 _ => .kR3
  | .recvI4 _ => .kI4
  | .sendR4 _ => .kR4

/-- The full I1,R1,I2,R2,I3,R3,I4,R4 message order of one session. -/
def fullKinds : List EKind :=
  [.kI1, .kR1, .kI2, .kR2, .kI3, .kR3, .kI4, .kR4]

/-- Result of one `serve` session: the events in order, and the returned
error (`none` = `serve` returned `nil`). -/
structure ServeResult where
  events : List Event
  err : Option String
deriving DecidableEq

/-- The server's per-session environment.  `srvpub`, `self` and the
keys are the `Server` fields; `Rs` is the seed drawn from the session
cipher stream after I1 arrives.  The function-valued fields model the
external collaborators exactly at the granularity `serve` uses them:
`hashSum` is `abstract.Sum`; `makeDeal` is `ConstructPromise` +
`MarshalBinary` on the selected insurer keys; `unmarshalDeal` is
`UnmarshalInit(thresT, thresR, thresN)` + `UnmarshalBinary`;
`produceResponse deal k` is `deal.ProduceResponse(k, &s.keypair)`
returning (share, response); `marshalResp` is `resp.MarshalBinary`;
`decI1`..`decI4` are `sigDecode` under the client key, `decR2 i` is
`sigDecode` under `srvpub[i]`, and `encR1`..`encR4` are `sigEncode`
under the server key.  `pick` is `pickInsurers`.
Modelled from the spec: `pickInsurers`, `sigEncode` and `sigDecode` are
repository code outside the given sources; per the spec, `pickInsurers`
is a deterministic pure function of (roster, client seed, dealer seed)
only, and the codecs are deterministic (de)serializers — both are
therefore modelled as arbitrary pure functions. -/
structure Env where
  srvpub : List Bytes
  self : Nat
  Rs : Bytes
  hashSum : Bytes → Bytes
  pick : List Bytes → Bytes → Bytes → List Nat
  makeDeal : List Bytes → Except String Bytes
  unmarshalDeal : Bytes → Except String Bytes
  produceResponse : Bytes → Nat → Except String (Bytes × Bytes)
  marshalResp : Bytes → Except String Bytes
  decI1 : Bytes → Except String I1
  decI2 : Bytes → Except String I2
  decI3 : Bytes → Except String I3
  decI4 : Bytes → Except String I4
  decR2 : Nat → Bytes → Except String R2
  encR1 : R1 → Except String Bytes
  encR2 : R2 → Except String Bytes
  encR3 : R3 → Except String Bytes
  encR4 : R4 → Except String Bytes

/-- The transport: results of successive `conn.Recv()` calls and the
error state of successive `conn.Send()` calls (`none` = send succeeds). -/
structure Conn where
  recvs : List (Except String Bytes)
  sendErr : Nat → Option String

/-- The `n`-th `conn.Recv()` (a session past the provided messages
blocks; modelled as a transport error). -/
def connRecv (conn : Conn) (n : Nat) : Except String Bytes :=
  conn.recvs.getD n (.error "connection closed")

/-- The insurer selection a dealer computes for its own deal
(line 88: `sel := pickInsurers(s.suite, s.srvpub, Rc, Rs)`). -/
def dealerSel (env : Env) (Rc : Bytes) : List Nat :=
  env.pick env.srvpub Rc env.Rs

/-- The insurer selection recomputed for dealer `i`'s revealed seed
(line 139: `sel := pickInsurers(s.suite, s.srvpub, Rc, r2i.Rs)`). -/
def insurerSel (env : Env) (Rc rs : Bytes) : List Nat :=
  env.pick env.srvpub Rc rs

/-- The inner round-3 loop over `k := range sel`: positions dealt to a
different server are skipped; for each position equal to `s.self`,
produce and marshal a response and retain the share.  Any failure aborts
with that error. -/
def processShares (env : Env) (i : Nat) (deal : Bytes) :
    Nat → List Nat → Except String (List R3Resp × List R4Share)
  | _, [] => .ok ([], [])
  | k, selk :: rest =>
    if selk = env.self then
      match env.produceResponse deal k with
      | .error e => .error e
      | .ok (share, resp) =>
        match env.marshalResp resp with
        | .error e => .error e
        | .ok respb =>
          match processShares env i deal (k + 1) rest with
          | .error e => .error e
          | .ok (rs, ss) => .ok (⟨i, k, respb⟩ :: rs, ⟨i, k, share⟩ :: ss)
    else processShares env i deal (k + 1) rest

/-- Round-3 processing of roster slot `i`: an empty blob is skipped
(`continue`); otherwise decode the R2 under `srvpub[i]`, unmarshal its
deal, and handle every selected position via `processShares`. -/
def processSlot (env : Env) (Rc : Bytes) (i : Nat) (r2ib : Bytes) :
    Except String (List R3Resp × List R4Share) :=
  if r2ib.length = 0 then .ok ([], [])
  else
    match env.decR2 i r2ib with
    | .error e => .error e
    | .ok r2i =>
      match env.unmarshalDeal r2i.Deal with
      | .error e => .error e
      | .ok deal => processShares env i deal 0 (insurerSel env Rc r2i.Rs)

/-- The round-3 loop over all roster slots, accumulating responses and
shares in slot order; the first failing slot aborts with its error. -/
def round3 (env : Env) (Rc : Bytes) :
    Nat → List Bytes → Except String (List R3Resp × List R4Share)
  | _, [] => .ok ([], [])
  | i, b :: rest =>
    match processSlot env Rc i b with
    | .error e => .error e
    | .ok (rs, ss) =>
      match round3 env Rc (i + 1) rest with
      | .error e => .error e
      | .ok (rs2, ss2) => .ok (rs ++ rs2, ss ++ ss2)

/-- The I4 consistency loop: slot by slot (I4 slot paired with the I3
slot of the same index — both arrays have roster length at the call
site), a non-empty I4 entry that differs byte-wise from the I3 entry is
fatal. -/
def subsetCheck : List Bytes → List Bytes → Option String
  | i4b :: rest4, i3b :: rest3 =>
    if i4b.length ≠ 0 ∧ i4b ≠ i3b then some "R2 set in I4 not a subset of I3"
    else subsetCheck rest4 rest3
  | _, _ => none

/-- Sending R4: marshal-and-sign, then hand to `conn.Send` (the fourth
send of the session). -/
def stage8 (env : Env) (conn : Conn) (shares : List R4Share) : ServeResult :=
  match env.encR4 ⟨shares⟩ with
  | .error e => ⟨[], some e⟩
  | .ok _ => ⟨[.sendR4 ⟨shares⟩], conn.sendErr 3⟩

/-- Receiving I4, length check, subset check, then R4. -/
def stage7 (env : Env) (conn : Conn) (i3R2s : List Bytes)
    (shares : List R4Share) : ServeResult :=
  match connRecv conn 3 with
  | .error e => ⟨[], some e⟩
  | .ok m4 =>
    match env.decI4 m4 with
    | .error e => ⟨[], some e⟩
    | .ok i4 =>
      if i4.R2s.length = env.srvpub.length then
        match subsetCheck i4.R2s i3R2s with
        | some e => ⟨[.recvI4 i4], some e⟩
        | none =>
          let r := stage8 env conn shares
          ⟨.recvI4 i4 :: r.events, r.err⟩
      else ⟨[.recvI4 i4], some "wrong-length R2 array in I4 message"⟩

/-- Receiving I3, length check, round-3 processing, sending R3, then the
I4/R4 stage. -/
def stage5 (env : Env) (conn : Conn) (Rc : Bytes) : ServeResult :=
  match connRecv conn 2 with
  | .error e => ⟨[], some e⟩
  | .ok m3 =>
    match env.decI3 m3 with
    | .error e => ⟨[], some e⟩
    | .ok i3 =>
      if i3.R2s.length = env.srvpub.length then
        match round3 env Rc 0 i3.R2s with
        | .error e => ⟨[.recvI3 i3], some e⟩
        | .ok (resps, shares) =>
          match env.encR3 ⟨resps⟩ with
          | .error e => ⟨[.recvI3 i3], some e⟩
          | .ok _ =>
            match conn.sendErr 2 with
            | some e => ⟨[.recvI3 i3, .sendR3 ⟨resps⟩], some e⟩
            | none =>
              let r := stage7 env conn i3.R2s shares
              ⟨.recvI3 i3 :: .sendR3 ⟨resps⟩ :: r.events, r.err⟩
      else ⟨[.recvI3 i3], some "wrong-length R2 array in I3 message"⟩

/-- Receiving I2, the commitment check `Hash(Rc) == HRc` (mismatch is the
fatal "client random hash mismatch"), constructing and marshalling the
deal over the insurer keys `srvpub[sel[i]]`, sending R2, then round 3. -/
def stage3 (env : Env) (conn : Conn) (i1 : I1) : ServeResult :=
  match connRecv conn 1 with
  | .error e => ⟨[], some e⟩
  | .ok m2 =>
    match env.decI2 m2 with
    | .error e => ⟨[], some e⟩
    | .ok i2 =>
      if env.hashSum i2.Rc = i1.HRc then
        match env.makeDeal
            ((dealerSel env i2.Rc).map (fun j => env.srvpub.getD j [])) with
        | .error e => ⟨[.recvI2 i2], some e⟩
        | .ok dealb =>
          match env.encR2 ⟨env.Rs, dealb⟩ with
          | .error e => ⟨[.recvI2 i2], some e⟩
          | .ok _ =>
            match conn.sendErr 1 with
            | some e => ⟨[.recvI2 i2, .sendR2 ⟨env.Rs, dealb⟩], some e⟩
            | none =>
              let r := stage5 env conn i2.Rc
              ⟨.recvI2 i2 :: .sendR2 ⟨env.Rs, dealb⟩ :: r.events, r.err⟩
      else ⟨[.recvI2 i2], some "client random hash mismatch"⟩

/-- Receiving I1, drawing `Rs` and sending the commitment R1, then the
rest of the session. -/
def stage1 (env : Env) (conn : Conn) : ServeResult :=
  match connRecv conn 0 with
  | .error e => ⟨[], some e⟩
  | .ok m1 =>
    match env.decI1 m1 with
    | .error e => ⟨[], some e⟩
    | .ok i1 =>
      match env.encR1 ⟨env.hashSum env.Rs⟩ with
      | .error e => ⟨[.recvI1 i1], some e⟩
      | .ok _ =>
        match conn.sendErr 0 with
        | some e => ⟨[.recvI1 i1, .sendR1 ⟨env.hashSum env.Rs⟩], some e⟩
        | none =>
          let r := stage3 env conn i1
          ⟨.recvI1 i1 :: .sendR1 ⟨env.hashSum env.Rs⟩ :: r.events, r.err⟩

/-- `Server.serve`: the whole four-round session, as the ordered list of
protocol events plus the returned error. -/
def serve (env : Env) (conn : Conn) : ServeResult :=
  stage1 env conn

/-- The positions `k` with `sel[k] = s.self`, starting the position
counter at `k`. -/
def selfPositions (env : Env) : Nat → List Nat → List Nat
  | _, [] => []
  | k, s :: rest =>
    if s = env.self then k :: selfPositions env (k + 1) rest
    else selfPositions env (k + 1) rest

/-- The (dealer, share-index) pairs round 3 retains: for every non-empty,
decodable slot `i`, one pair per position of `self` in that dealer's
insurer selection. -/
def qualPairs (env : Env) (Rc : Bytes) :
    Nat → List Bytes → List (Nat × Nat)
  | _, [] => []
  | i, b :: rest =>
    (if b.length = 0 then []
     else
       match env.decR2 i b with
       | .error _ => []
       | .ok r2i =>
         (selfPositions env 0 (insurerSel env Rc r2i.Rs)).map (fun k => (i, k)))
    ++ qualPairs env Rc (i + 1) rest

/-- A small concrete environment for witnesses: three servers, this one
at index 0, identity hash, constant selection `[0,1,2]`, and trivially
succeeding codecs (`decI3`/`decI4` read one roster slot per byte, `0`
denoting an absent slot). -/
def toyEnv : Env :=
  { srvpub := [[1], [2], [3]]
    self := 0
    Rs := [5]
    hashSum := fun b => b
    pick := fun _ _ _ => [0, 1, 2]
    makeDeal := fun _ => .ok [7]
    unmarshalDeal := fun b => .ok b
    produceResponse := fun deal k => .ok (deal ++ [k], [k])
    marshalResp := fun r => .ok r
    decI1 := fun b => .ok ⟨b⟩
    decI2 := fun b => .ok ⟨b⟩
    decI3 := fun b => .ok ⟨b.map (fun x => if x = 0 then [] else [x])⟩
    decI4 := fun b => .ok ⟨b.map (fun x => if x = 0 then [] else [x])⟩
    decR2 := fun _ b => .ok ⟨b, b⟩
    encR1 := fun _ => .ok [0]
    encR2 := fun _ => .ok [0]
    encR3 := fun _ => .ok [0]
    encR4 := fun _ => .ok [0] }

/-- An honest client transcript for `toyEnv`: commitment [7], seed [7],
I3 with dealer 0 present, I4 identical to I3; all sends succeed. -/
def toyConn : Conn :=
  ⟨[.ok [7], .ok [7], .ok [4, 0, 0], .ok [4, 0, 0]], fun _ => none⟩

/-- A client transcript whose revealed seed does not hash to the I1
commitment. -/
def connMismatch : Conn :=
  ⟨[.ok [9], .ok [7]], fun _ => none⟩

/-- A client transcript whose I4 slot 0 differs byte-wise from I3
slot 0. -/
def connViol : Conn :=
  ⟨[.ok [7], .ok [7], .ok [4, 0, 0], .ok [9, 0, 0]], fun _ => none⟩

/-- `toyEnv` with a failing R2 signature decoder. -/
def toyEnvDecFail : Env :=
  { toyEnv with decR2 := fun _ _ => .error "signature decode failed" }

/-- `toyEnv` seen from a different server identity (selection inputs
unchanged). -/
def toyEnvOther : Env :=
  { toyEnv with self := 99 }

/-- Four servers, this one at index 3, and a seed-dependent insurer
selection that always picks three distinct indices among `{0,1,2}` —
a selection the spec's contract permits, under which server 3 is never
chosen as an insurer. -/
def envNoSel : Env :=
  { toyEnv with
    srvpub := [[1], [2], [3], [4]]
    self := 3
    pick := fun _ c d =>
      [(c.headD 0 + d.headD 0) % 3, (c.headD 0 + d.headD 0 + 1) % 3,
        (c.headD 0 + d.headD 0 + 2) % 3] }

/-- An honest client transcript for the four-server roster: I3 with
dealer 0 present, I4 identical to I3. -/
def connN4 : Conn :=
  ⟨[.ok [7], .ok [7], .ok [4, 0, 0, 0], .ok [4, 0, 0, 0]], fun _ => none⟩

theorem byteCompare_eq_iff : ∀ x y : Bytes, byteCompare x y = .eq ↔ x = y
  | [], [] => by simp [byteCompare]
  | [], _ :: _ => by simp [byteCompare]
  | _ :: _, [] => by simp [byteCompare]
  | a :: as, b :: bs => by
    simp only [byteCompare]
    by_cases h1 : a < b
    · rw [if_pos h1]
      constructor
      · intro hc; cases hc
      · intro hc; injection hc with h2 _; omega
    · by_cases h2 : b < a
      · rw [if_neg h1, if_pos h2]
        constructor
        · intro hc; cases hc
        · intro hc; injection hc with h3 _; omega
      · have hab : a = b := by omega
        subst hab
        rw [if_neg h1, if_neg h2]
        simp [byteCompare_eq_iff as bs]

theorem byteCompare_swap : ∀ x y : Bytes,
    byteCompare x y = .gt ↔ byteCompare y x = .lt
  | [], [] => by simp [byteCompare]
  | [], _ :: _ => by simp [byteCompare]
  | _ :: _, [] => by simp [byteCompare]
  | a :: as, b :: bs => by
    simp only [byteCompare]
    by_cases h1 : a < b
    · rw [if_pos h1, if_neg (Nat.lt_asymm h1), if_pos h1]
      constructor <;> (intro hc; cases hc)
    · by_cases h2 : b < a
      · rw [if_neg h1, if_pos h2, if_pos h2]
        simp
      · have hab : a = b := by omega
        subst hab
        rw [if_neg h1, if_neg h2, if_neg h1, if_neg h2]
        exact byteCompare_swap as bs

theorem hashNode_comm (H : Bytes → Bytes) (buf left right : Bytes) :
    hashNode H buf left right = hashNode H buf right left := by
  unfold hashNode
  by_cases h : byteCompare left right = .gt
  · have h2 : byteCompare right left = .lt := (byteCompare_swap left right).mp h
    rw [if_pos h, if_neg (by rw [h2]; intro hc; cases hc)]
  · by_cases h3 : byteCompare right left = .gt
    · rw [if_neg h, if_pos h3]
    · have h4 : byteCompare left right = .eq := by
        rcases hc : byteCompare left right with _ | _ | _
        · exact absurd ((byteCompare_swap right left).mpr hc) h3
        · rfl
        · exact absurd hc h
      have h5 : left = right := (byteCompare_eq_iff left right).mp h4
      subst h5
      rfl

/-- `wrap64` is the identity on values already inside the signed 64-bit
range. -/
theorem wrap64_eq_self {x : Int} (h1 : -9223372036854775808 ≤ x)
    (h2 : x < 9223372036854775808) : wrap64 x = x := by
  unfold wrap64
  rw [Int.emod_eq_of_lt (by omega) (by omega)]
  omega

/-- Provided no pointer addition overflows a 64-bit `int`, the pointer
loop never evaluates an out-of-range slice: the `end > len(blob)` guard
then precedes every slice with an unwrapped `end`. -/
theorem merkleGetPtrs_no_oob (ctx : Bytes → Except String Bytes) :
    ∀ (ptrs : List Int) (blob : Bytes),
      (∀ beg ∈ ptrs, 0 ≤ beg ∧ beg + 256 < 9223372036854775808) →
      merkleGetPtrs ctx ptrs blob ≠ .error .oob
  | [], blob, hb => by simp [merkleGetPtrs]
  | beg :: rest, blob, hb => by
    obtain ⟨hbeg0, hbeg1⟩ := hb beg (List.mem_cons_self beg rest)
    have he : intAdd64 beg 256 = beg + 256 := by
      unfold intAdd64
      exact wrap64_eq_self (by omega) (by omega)
    simp only [merkleGetPtrs, he]
    split
    · simp
    · next hguard =>
      have hg : goSlice blob beg (beg + 256) =
          .ok ((blob.drop beg.toNat).take (beg + 256 - beg).toNat) := by
        rw [goSlice, if_pos ⟨hbeg0, by omega, by omega⟩]
      simp only [hg]
      split
      · simp
      · next b hbb =>
        exact merkleGetPtrs_no_oob ctx rest b
          (fun x hx => hb x (List.mem_cons_of_mem beg hx))

/-- C9 (amended) — MerkleGet bounds safety without overflow: provided
every pointer offset is non-negative with `beg + 256` inside the 64-bit
`int` range, and the object window has `0 ≤ Ofs`, `0 ≤ Len` and
`Ofs + Len` inside the range, `MerkleGet` returns either a byte slice or
a proper error value (never an out-of-range access); an oversized
pointer window on the current blob yields the error
"bad Merkle tree pointer offset", and an oversized object window on the
blob reached by the pointer loop yields the error
"bad Merkle tree object offset/length". -/
theorem merkleGet_bounds_safety (ctx : Bytes → Except String Bytes)
    (root : Bytes) (path : MerklePath)
    (hPtr : ∀ beg ∈ path.Ptr, 0 ≤ beg ∧ beg + 256 < 9223372036854775808)
    (hOfs : 0 ≤ path.Ofs) (hLen : 0 ≤ path.Len)
    (hOL : path.Ofs + path.Len < 9223372036854775808) :
    ((∃ b, MerkleGet ctx root path = .ok b) ∨
      (∃ s, MerkleGet ctx root path = .error (.msg s))) ∧
    (∀ (beg : Int) (rest : List Int) (blob : Bytes), 0 ≤ beg →
      beg + 256 < 9223372036854775808 → (blob.length : Int) < beg + 256 →
      merkleGetPtrs ctx (beg :: rest) blob =
        .error (.msg "bad Merkle tree pointer offset")) ∧
    (∀ blob, merkleGetPtrs ctx path.Ptr root = .ok blob →
      (blob.length : Int) < path.Ofs + path.Len →
      MerkleGet ctx root path =
        .error (.msg "bad Merkle tree object offset/length")) := by
  have heOL : intAdd64 path.Ofs path.Len = path.Ofs + path.Len := by
    unfold intAdd64
    exact wrap64_eq_self (by omega) (by omega)
  refine ⟨?_, ?_, ?_⟩
  · cases hp : merkleGetPtrs ctx path.Ptr root with
    | error e =>
      cases e with
      | msg s => exact .inr ⟨s, by unfold MerkleGet; simp [hp]⟩
      | oob => exact absurd hp (merkleGetPtrs_no_oob ctx path.Ptr root hPtr)
    | ok blob =>
      by_cases hlen : path.Ofs + path.Len > (blob.length : Int)
      · refine .inr ⟨"bad Merkle tree object offset/length", ?_⟩
        unfold MerkleGet
        simp only [hp, heOL]
        rw [if_pos hlen]
      · refine .inl
          ⟨(blob.drop path.Ofs.toNat).take
            (path.Ofs + path.Len - path.Ofs).toNat, ?_⟩
        unfold MerkleGet
        simp only [hp, heOL]
        rw [if_neg hlen, goSlice, if_pos ⟨hOfs, by omega, by omega⟩]
  · intro beg rest blob h1 h2 h3
    have he : intAdd64 beg 256 = beg + 256 := by
      unfold intAdd64
      exact wrap64_eq_self (by omega) (by omega)
    simp only [merkleGetPtrs, he]
    rw [if_pos (by omega)]
  · intro blob hok hlen
    unfold MerkleGet
    simp only [hok, heOL]
    rw [if_pos (by omega)]

/-- Witness for the amended C9 at a concrete input: a one-pointer path
over an empty root blob hits the pointer-offset error. -/
theorem merkleGet_bounds_safety_witness :
    (([] : Bytes).length : Int) < 0 + 256 ∧
      merkleGetPtrs (fun _ => .error "absent") [0] [] =
        .error (.msg "bad Merkle tree pointer offset") :=
  ⟨by decide,
    (merkleGet_bounds_safety (fun _ => .error "absent") []
      ⟨[0], 0, 0⟩ (by decide) (by decide) (by decide) (by decide)).2.1
      0 [] [] (by decide) (by decide) (by decide)⟩

/-- Counterexample to C9 as stated: with the non-negative pointer offset
9223372036854775708 (= 2^63 − 100), Go's `end := beg + 256` wraps to a
negative `int`, the `end > len(blob)` guard is bypassed, and the slice
expression `blob[beg:end]` is out of range — a Go panic (`oob`), not the
claimed "bad Merkle tree pointer offset" error and not a returned byte
slice. -/
theorem merkleGet_bounds_safety_counterexample :
    (0 : Int) ≤ 9223372036854775708 ∧
      MerkleGet (fun _ => .error "absent") []
        ⟨[9223372036854775708], 0, 0⟩ = .error .oob :=
  ⟨by decide, rfl⟩

/-- C10 — child-order commutativity: `hashNode` sorts its two children
before hashing, so swapping them changes nothing; consequently a
`Proof.Calc` recomputation is unaffected by which side of the lowest
sibling pair the leaf sits on. -/
theorem hashNode_child_order_comm :
    (∀ (H : Bytes → Bytes) (buf left right : Bytes),
      hashNode H buf left right = hashNode H buf right left) ∧
    (∀ (H : Bytes → Bytes) (p : Proof) (leaf sib : Bytes),
      Proof.Calc H (p ++ [sib]) leaf = Proof.Calc H (p ++ [leaf]) sib) := by
  refine ⟨hashNode_comm, ?_⟩
  intro H p leaf sib
  simp only [Proof.Calc, List.reverse_append, List.reverse_cons,
    List.reverse_nil, List.nil_append, List.singleton_append,
    List.foldl_cons]
  rw [hashNode_comm]

theorem headD_eq_getD_zero (l : List Bytes) : l.headD [] = l.getD 0 [] := by
  cases l <;> simp

theorem get?_eq_some_getD {l : List Bytes} {n : Nat} (h : n < l.length) :
    l.get? n = some (l.getD n []) := by
  rw [List.getD_eq_getD_get?, List.get?_eq_get h]
  rfl

theorem levelUp_length (H : Bytes → Bytes) :
    ∀ l : List Bytes, (levelUp H l).length = l.length / 2
  | [] => by simp [levelUp]
  | [a] => by simp [levelUp]
  | a :: b :: rest => by
    simp only [levelUp, List.length_cons]
    rw [levelUp_length H rest]
    omega

theorem levelUp_get? (H : Bytes → Bytes) :
    ∀ (l : List Bytes) (k : Nat), 2 * k + 1 < l.length →
      (levelUp H l).get? k =
        some (hashNode H [] (l.getD (2 * k) []) (l.getD (2 * k + 1) []))
  | [], k, h => by simp at h
  | [a], k, h => by simp at h
  | a :: b :: rest, 0, h => by simp [levelUp]
  | a :: b :: rest, k + 1, h => by
    have hk : 2 * k + 1 < rest.length := by
      simp only [List.length_cons] at h
      omega
    have ih := levelUp_get? H rest k hk
    have h2 : 2 * (k + 1) = 2 * k + 1 + 1 := by ring
    have h3 : 2 * (k + 1) + 1 = 2 * k + 1 + 1 + 1 := by ring
    simp only [levelUp, List.get?_cons_succ, h2, h3, List.getD_cons_succ]
    exact ih

theorem iterLevel_length (H : Bytes → Bytes) :
    ∀ (d : Nat) (l : List Bytes),
      (iterLevel H d l).length = l.length / 2 ^ d
  | 0, l => by simp [iterLevel]
  | d + 1, l => by
    simp only [iterLevel]
    rw [iterLevel_length H d (levelUp H l), levelUp_length H l,
      Nat.div_div_eq_div_mul]
    congr 1
    ring

theorem calc_append_single (H : Bytes → Bytes) (p : Proof) (x leaf : Bytes) :
    Proof.Calc H (p ++ [x]) leaf = Proof.Calc H p (hashNode H [] leaf x) := by
  simp [Proof.Calc, List.reverse_append]

theorem depthGo_ge (m n depth : Nat) : depth ≤ depthGo m n depth := by
  unfold depthGo
  split
  · exact le_trans (Nat.le_succ depth) (depthGo_ge m (n <<< 1) (depth + 1))
  · exact le_refl _
termination_by m - n
decreasing_by
  simp only [Nat.shiftLeft_eq, Nat.pow_one]
  omega

theorem depthGo_bound (m n depth : Nat) (hn : 0 < n) :
    m ≤ n * 2 ^ (depthGo m n depth - depth) := by
  unfold depthGo
  split
  · next h =>
    have hn2 : 0 < n <<< 1 := by
      simp only [Nat.shiftLeft_eq, Nat.pow_one]
      omega
    have ih := depthGo_bound m (n <<< 1) (depth + 1) hn2
    have hge := depthGo_ge m (n <<< 1) (depth + 1)
    have h1 : depthGo m (n <<< 1) (depth + 1) - depth =
        (depthGo m (n <<< 1) (depth + 1) - (depth + 1)) + 1 := by omega
    rw [h1, pow_succ]
    simp only [Nat.shiftLeft_eq, Nat.pow_one] at ih
    calc m ≤ n * 2 * 2 ^ (depthGo m (n * 2) (depth + 1) - (depth + 1)) := ih
    _ = n * (2 ^ (depthGo m (n * 2) (depth + 1) - (depth + 1)) * 2) := by ring
    _ = n * (2 ^ (depthGo m (n <<< 1) (depth + 1) - (depth + 1)) * 2) := by
        simp [Nat.shiftLeft_eq]
  · next h =>
    simp only [Nat.sub_self, pow_zero, Nat.mul_one]
    omega
termination_by m - n
decreasing_by
  simp only [Nat.shiftLeft_eq, Nat.pow_one]
  omega

theorem treeDepth_bound (m : Nat) : m ≤ 2 ^ treeDepth m := by
  have h := depthGo_bound m 1 0 (by omega)
  simpa [treeDepth] using h

theorem proofFor_succ (H : Bytes → Bytes) (d i : Nat) (l : List Bytes)
    (hsib : sibling i < l.length) :
    proofFor H (d + 1) i l =
      proofFor H d (i >>> 1) (levelUp H l) ++ [l.getD (sibling i) []] := by
  unfold proofFor
  rw [List.range_succ_eq_map, List.reverse_cons, List.map_append,
    List.filterMap_append]
  congr 1
  · rw [← List.map_reverse, List.map_map]
    have hfe : ((fun e => (iterLevel H e l).get? (sibling (i >>> e))) ∘
          Nat.succ) =
        fun e => (iterLevel H e (levelUp H l)).get? (sibling (i >>> 1 >>> e)) := by
      funext e
      simp only [Function.comp_apply, Nat.succ_eq_add_one, iterLevel]
      rw [← Nat.shiftRight_add, Nat.add_comm 1 e]
    rw [hfe]
  · simp only [List.map_cons, List.map_nil, iterLevel, Nat.shiftRight_zero]
    rw [get?_eq_some_getD hsib]
    simp [List.filterMap]

theorem levelUp_getD_shift (H : Bytes → Bytes) (l : List Bytes) (i : Nat)
    (hsib : sibling i < l.length) (hil : i < l.length) :
    (levelUp H l).getD (i >>> 1) [] =
      hashNode H [] (l.getD i []) (l.getD (sibling i) []) := by
  by_cases hp : i % 2 = 1
  · have hs : sibling i = i - 1 := by unfold sibling; rw [if_pos hp]
    have e1 : 2 * (i >>> 1) = i - 1 := by rw [Nat.shiftRight_one]; omega
    have e2 : 2 * (i >>> 1) + 1 = i := by rw [Nat.shiftRight_one]; omega
    have hb : 2 * (i >>> 1) + 1 < l.length := by rw [e2]; exact hil
    have hget := levelUp_get? H l (i >>> 1) hb
    rw [e2, e1] at hget
    rw [List.getD_eq_getD_get?, hget, hs]
    simp only [Option.getD_some]
    exact hashNode_comm H [] (l.getD (i - 1) []) (l.getD i [])
  · have hs : sibling i = i + 1 := by unfold sibling; rw [if_neg hp]
    have e1 : 2 * (i >>> 1) = i := by rw [Nat.shiftRight_one]; omega
    have e2 : 2 * (i >>> 1) + 1 = i + 1 := by rw [Nat.shiftRight_one]; omega
    have hb : 2 * (i >>> 1) + 1 < l.length := by rw [e2, ← hs]; exact hsib
    have hget := levelUp_get? H l (i >>> 1) hb
    rw [e2, e1] at hget
    rw [List.getD_eq_getD_get?, hget, hs]
    simp only [Option.getD_some]

theorem calc_proofFor (H : Bytes → Bytes) :
    ∀ (d : Nat) (l : List Bytes) (i : Nat), l.length = 2 ^ d → i < 2 ^ d →
      Proof.Calc H (proofFor H d i l) (l.getD i []) =
        (iterLevel H d l).headD []
  | 0, l, i, hl, hi => by
    have hi0 : i = 0 := by omega
    subst hi0
    simp only [proofFor, List.range_zero, List.reverse_nil, List.map_nil,
      List.filterMap_nil, Proof.Calc, List.foldl_nil, iterLevel]
    cases l <;> simp
  | d + 1, l, i, hl, hi => by
    have hpow : (2 : Nat) ^ (d + 1) = 2 * 2 ^ d := by ring
    have hlen2 : (levelUp H l).length = 2 ^ d := by
      rw [levelUp_length H l, hl, hpow]
      omega
    have hi2 : i >>> 1 < 2 ^ d := by
      rw [Nat.shiftRight_one]
      rw [hpow] at hi
      omega
    have hil : i < l.length := by rw [hl]; exact hi
    have hsib : sibling i < l.length := by
      rw [hl, hpow]
      rw [hpow] at hi
      unfold sibling
      split <;> omega
    rw [proofFor_succ H d i l hsib, calc_append_single,
      show hashNode H [] (l.getD i []) (l.getD (sibling i) []) =
          (levelUp H l).getD (i >>> 1) [] from
        (levelUp_getD_shift H l i hsib hil).symm,
      calc_proofFor H d (levelUp H l) (i >>> 1) hlen2 hi2]
    simp [iterLevel]

/-- C8 — Merkle round trip: for every non-empty list of digest-sized
leaves, `ProofTree` returns one proof per leaf, and every proof checks
against the returned root and its leaf (also for non-power-of-two leaf
counts, where the tree is built over zero-padded leaves). -/
theorem proofTree_roundTrip (H : Bytes → Bytes) (hashSize : Nat)
    (leaves : List Bytes) (hne : leaves ≠ [])
    (hsz : ∀ l ∈ leaves, l.length = hashSize) :
    (ProofTree H hashSize leaves).2.length = leaves.length ∧
    ∀ i, i < leaves.length →
      Proof.Check H ((ProofTree H hashSize leaves).2.getD i [])
        (ProofTree H hashSize leaves).1 (leaves.getD i []) = true := by
  have hie : leaves.isEmpty = false := by
    cases leaves with
    | nil => exact absurd rfl hne
    | cons a t => rfl
  have hbound : leaves.length ≤ 2 ^ treeDepth leaves.length :=
    treeDepth_bound leaves.length
  have hPT : ProofTree H hashSize leaves =
      ((iterLevel H (treeDepth leaves.length)
          (leaves ++ List.replicate (2 ^ treeDepth leaves.length - leaves.length)
            (List.replicate hashSize 0))).headD [],
        ((List.range (2 ^ treeDepth leaves.length)).map
          (fun i => proofFor H (treeDepth leaves.length) i
            (leaves ++ List.replicate (2 ^ treeDepth leaves.length - leaves.length)
              (List.replicate hashSize 0)))).take leaves.length) := by
    simp only [ProofTree, hie, Bool.false_eq_true, if_false]
  have hplen : (leaves ++ List.replicate (2 ^ treeDepth leaves.length - leaves.length)
      (List.replicate hashSize 0)).length = 2 ^ treeDepth leaves.length := by
    simp only [List.length_append, List.length_replicate]
    omega
  rw [hPT]
  constructor
  · simp only [List.length_take, List.length_map, List.length_range]
    omega
  · intro i hi
    have hiN : i < 2 ^ treeDepth leaves.length := by omega
    have hproofs : ((((List.range (2 ^ treeDepth leaves.length)).map
        (fun i => proofFor H (treeDepth leaves.length) i
          (leaves ++ List.replicate (2 ^ treeDepth leaves.length - leaves.length)
            (List.replicate hashSize 0)))).take leaves.length)).getD i [] =
        proofFor H (treeDepth leaves.length) i
          (leaves ++ List.replicate (2 ^ treeDepth leaves.length - leaves.length)
            (List.replicate hashSize 0)) := by
      rw [List.getD_eq_getD_get?, List.get?_eq_getElem?,
        List.getElem?_take_of_lt hi, List.getElem?_map,
        List.getElem?_range hiN]
      rfl
    have hleaf : leaves.getD i [] =
        (leaves ++ List.replicate (2 ^ treeDepth leaves.length - leaves.length)
          (List.replicate hashSize 0)).getD i [] :=
      (List.getD_append leaves _ [] i hi).symm
    have hcalc := calc_proofFor H (treeDepth leaves.length)
      (leaves ++ List.replicate (2 ^ treeDepth leaves.length - leaves.length)
        (List.replicate hashSize 0)) i hplen hiN
    rw [hproofs, hleaf]
    simp only [Proof.Check, hcalc, constantTimeCompare]
    simp

/-- Witness for C8 at a concrete input: three one-byte leaves under a toy
one-byte digest function; the first proof checks against the root. -/
theorem proofTree_roundTrip_witness :
    ([[1], [2], [3]] : List Bytes) ≠ [] ∧
      Proof.Check (fun b => [b.foldl (· + ·) 0 % 256])
        ((ProofTree (fun b => [b.foldl (· + ·) 0 % 256]) 1 [[1], [2], [3]]).2.getD 0 [])
        (ProofTree (fun b => [b.foldl (· + ·) 0 % 256]) 1 [[1], [2], [3]]).1
        (([[1], [2], [3]] : List Bytes).getD 0 []) = true :=
  ⟨by decide,
    (proofTree_roundTrip (fun b => [b.foldl (· + ·) 0 % 256]) 1 [[1], [2], [3]]
      (by decide) (by decide)).2 0 (by decide)⟩

/-- C1 — commitment binding: once I2 arrives, if `Hash(Rc)` differs from
the `HRc` committed in I1, `serve` returns the error
"client random hash mismatch" and the session's outbound traffic stops
at R1: no R2 (nor any later message) is handed to the transport. -/
theorem serve_commit_binding (env : Env) (conn : Conn) {m1 m2 b1 : Bytes}
    {i1 : I1} {i2 : I2}
    (h0 : connRecv conn 0 = .ok m1) (h1 : env.decI1 m1 = .ok i1)
    (h2 : env.encR1 ⟨env.hashSum env.Rs⟩ = .ok b1)
    (h3 : conn.sendErr 0 = none)
    (h4 : connRecv conn 1 = .ok m2) (h5 : env.decI2 m2 = .ok i2)
    (hne : env.hashSum i2.Rc ≠ i1.HRc) :
    serve env conn =
      ⟨[.recvI1 i1, .sendR1 ⟨env.hashSum env.Rs⟩, .recvI2 i2],
        some "client random hash mismatch"⟩ := by
  unfold serve stage1 stage3
  simp only [h0, h1, h2, h3, h4, h5]
  rw [if_neg hne]

/-- Witness for C1: a client that commits to `[9]` but reveals `[7]`. -/
theorem serve_commit_binding_witness :
    serve toyEnv connMismatch =
      ⟨[.recvI1 ⟨[9]⟩, .sendR1 ⟨[5]⟩, .recvI2 ⟨[7]⟩],
        some "client random hash mismatch"⟩ :=
  serve_commit_binding toyEnv connMismatch rfl rfl rfl rfl rfl rfl (by decide)

/-- C5 — insurer-selection determinism and dual use: the selection is a
pure function of (roster, client seed, dealer seed) — identical inputs
give identical ordered index lists, and it does not depend on the calling
server's identity — and `serve` invokes the same function as dealer
(`dealerSel`, on its own seed) and as insurer (`insurerSel`, on each
dealer's revealed seed). -/
theorem insurer_selection_pure_dual :
    (∀ (env : Env) (Rc rs : Bytes),
      insurerSel env Rc rs = insurerSel env Rc rs) ∧
    (∀ (env : Env) (Rc : Bytes), dealerSel env Rc = insurerSel env Rc env.Rs) ∧
    (∀ (env env2 : Env) (Rc rs : Bytes), env.pick = env2.pick →
      env.srvpub = env2.srvpub → insurerSel env Rc rs = insurerSel env2 Rc rs) := by
  refine ⟨fun _ _ _ => rfl, fun _ _ => rfl, ?_⟩
  intro env env2 Rc rs hp hs
  simp [insurerSel, hp, hs]

/-- Witness for C5: two servers differing only in their own index compute
the same insurer selection. -/
theorem insurer_selection_pure_dual_witness :
    insurerSel toyEnv [7] [5] = insurerSel toyEnvOther [7] [5] :=
  insurer_selection_pure_dual.2.2 toyEnv toyEnvOther [7] [5] rfl rfl


theorem stage8_kinds (env : Env) (conn : Conn) (shares : List R4Share) :
    (∃ n, (stage8 env conn shares).events.map Event.kind =
      [EKind.kR4].take n) ∧
    ((stage8 env conn shares).err = none →
      (stage8 env conn shares).events.map Event.kind = [EKind.kR4]) := by
  unfold stage8
  split
  · exact ⟨⟨0, rfl⟩, fun h => nomatch h⟩
  · exact ⟨⟨1, rfl⟩, fun _ => rfl⟩

theorem stage7_kinds (env : Env) (conn : Conn) (i3R2s : List Bytes)
    (shares : List R4Share) :
    (∃ n, (stage7 env conn i3R2s shares).events.map Event.kind =
      [EKind.kI4, EKind.kR4].take n) ∧
    ((stage7 env conn i3R2s shares).err = none →
      (stage7 env conn i3R2s shares).events.map Event.kind =
        [EKind.kI4, EKind.kR4]) := by
  unfold stage7
  split
  · exact ⟨⟨0, rfl⟩, fun h => nomatch h⟩
  · split
    · exact ⟨⟨0, rfl⟩, fun h => nomatch h⟩
    · next i4 heq =>
      split
      · split
        · exact ⟨⟨1, rfl⟩, fun h => nomatch h⟩
        · obtain ⟨⟨n, hn⟩, himp⟩ := stage8_kinds env conn shares
          refine ⟨⟨n + 1, ?_⟩, ?_⟩
          · show (Event.recvI4 i4 ::
                (stage8 env conn shares).events).map Event.kind = _
            rw [List.map_cons, hn]
            exact rfl
          · intro h
            show (Event.recvI4 i4 ::
                (stage8 env conn shares).events).map Event.kind = _
            rw [List.map_cons, himp h]
            exact rfl
      · exact ⟨⟨1, rfl⟩, fun h => nomatch h⟩

theorem stage5_kinds (env : Env) (conn : Conn) (Rc : Bytes) :
    (∃ n, (stage5 env conn Rc).events.map Event.kind =
      [EKind.kI3, EKind.kR3, EKind.kI4, EKind.kR4].take n) ∧
    ((stage5 env conn Rc).err = none →
      (stage5 env conn Rc).events.map Event.kind =
        [EKind.kI3, EKind.kR3, EKind.kI4, EKind.kR4]) := by
  unfold stage5
  split
  · exact ⟨⟨0, rfl⟩, fun h => nomatch h⟩
  · split
    · exact ⟨⟨0, rfl⟩, fun h => nomatch h⟩
    · next i3 heq =>
      split
      · split
        · exact ⟨⟨1, rfl⟩, fun h => nomatch h⟩
        · next resps shares heq2 =>
          split
          · exact ⟨⟨1, rfl⟩, fun h => nomatch h⟩
          · split
            · exact ⟨⟨2, rfl⟩, fun h => nomatch h⟩
            · obtain ⟨⟨n, hn⟩, himp⟩ := stage7_kinds env conn i3.R2s shares
              refine ⟨⟨n + 2, ?_⟩, ?_⟩
              · show (Event.recvI3 i3 :: Event.sendR3 ⟨resps⟩ ::
                    (stage7 env conn i3.R2s shares).events).map Event.kind = _
                rw [List.map_cons, List.map_cons, hn]
                exact rfl
              · intro h
                show (Event.recvI3 i3 :: Event.sendR3 ⟨resps⟩ ::
                    (stage7 env conn i3.R2s shares).events).map Event.kind = _
                rw [List.map_cons, List.map_cons, himp h]
                exact rfl
      · exact ⟨⟨1, rfl⟩, fun h => nomatch h⟩

theorem stage3_kinds (env : Env) (conn : Conn) (i1 : I1) :
    (∃ n, (stage3 env conn i1).events.map Event.kind =
      [EKind.kI2, EKind.kR2, EKind.kI3, EKind.kR3, EKind.kI4,
        EKind.kR4].take n) ∧
    ((stage3 env conn i1).err = none →
      (stage3 env conn i1).events.map Event.kind =
        [EKind.kI2, EKind.kR2, EKind.kI3, EKind.kR3, EKind.kI4,
          EKind.kR4]) := by
  unfold stage3
  split
  · exact ⟨⟨0, rfl⟩, fun h => nomatch h⟩
  · split
    · exact ⟨⟨0, rfl⟩, fun h => nomatch h⟩
    · next i2 heq =>
      split
      · split
        · exact ⟨⟨1, rfl⟩, fun h => nomatch h⟩
        · next dealb heq2 =>
          split
          · exact ⟨⟨1, rfl⟩, fun h => nomatch h⟩
          · split
            · exact ⟨⟨2, rfl⟩, fun h => nomatch h⟩
            · obtain ⟨⟨n, hn⟩, himp⟩ := stage5_kinds env conn i2.Rc
              refine ⟨⟨n + 2, ?_⟩, ?_⟩
              · show (Event.recvI2 i2 :: Event.sendR2 ⟨env.Rs, dealb⟩ ::
                    (stage5 env conn i2.Rc).events).map Event.kind = _
                rw [List.map_cons, List.map_cons, hn]
                exact rfl
              · intro h
                show (Event.recvI2 i2 :: Event.sendR2 ⟨env.Rs, dealb⟩ ::
                    (stage5 env conn i2.Rc).events).map Event.kind = _
                rw [List.map_cons, List.map_cons, himp h]
                exact rfl
      · exact ⟨⟨1, rfl⟩, fun h => nomatch h⟩

theorem stage1_kinds (env : Env) (conn : Conn) :
    (∃ n, (stage1 env conn).events.map Event.kind = fullKinds.take n) ∧
    ((stage1 env conn).err = none →
      (stage1 env conn).events.map Event.kind = fullKinds) := by
  unfold stage1
  split
  · exact ⟨⟨0, rfl⟩, fun h => nomatch h⟩
  · split
    · exact ⟨⟨0, rfl⟩, fun h => nomatch h⟩
    · next i1 heq =>
      split
      · exact ⟨⟨1, rfl⟩, fun h => nomatch h⟩
      · split
        · exact ⟨⟨2, rfl⟩, fun h => nomatch h⟩
        · obtain ⟨⟨n, hn⟩, himp⟩ := stage3_kinds env conn i1
          refine ⟨⟨n + 2, ?_⟩, ?_⟩
          · show (Event.recvI1 i1 :: Event.sendR1 ⟨env.hashSum env.Rs⟩ ::
                (stage3 env conn i1).events).map Event.kind = _
            rw [List.map_cons, List.map_cons, hn]
            exact rfl
          · intro h
            show (Event.recvI1 i1 :: Event.sendR1 ⟨env.hashSum env.Rs⟩ ::
                (stage3 env conn i1).events).map Event.kind = _
            rw [List.map_cons, List.map_cons, himp h]
            exact rfl

/-- C6 — strict alternation: in every session the sequence of successful
receives and attempted sends is a prefix of I1,R1,I2,R2,I3,R3,I4,R4 (so
each outbound message follows the matching validated inbound one, with
at most one send between consecutive receives, and nothing is sent after
an error aborts the session); an error-free session realizes the whole
sequence. -/
theorem serve_strict_alternation (env : Env) (conn : Conn) :
    (∃ n, (serve env conn).events.map Event.kind = fullKinds.take n) ∧
    ((serve env conn).err = none →
      (serve env conn).events.map Event.kind = fullKinds) :=
  stage1_kinds env conn

/-- Witness for C6: the honest toy session realizes the full sequence. -/
theorem serve_strict_alternation_witness :
    (serve toyEnv toyConn).events.map Event.kind = fullKinds :=
  (serve_strict_alternation toyEnv toyConn).2 rfl

theorem round3_err_propagation (env : Env) (Rc : Bytes) :
    ∀ (pre : List Bytes) (k : Nat) (b : Bytes) (rest : List Bytes)
      (e : String),
      (∀ j, j < pre.length → ∃ out,
        processSlot env Rc (k + j) (pre.getD j []) = .ok out) →
      processSlot env Rc (k + pre.length) b = .error e →
      round3 env Rc k (pre ++ b :: rest) = .error e
  | [], k, b, rest, e, hok, herr => by
    simp only [List.length_nil, Nat.add_zero] at herr
    simp only [List.nil_append, round3, herr]
  | p :: ps, k, b, rest, e, hok, herr => by
    obtain ⟨out, hout⟩ := hok 0 (by simp)
    simp only [Nat.add_zero, List.getD_cons_zero] at hout
    obtain ⟨o1, o2⟩ := out
    have ih := round3_err_propagation env Rc ps (k + 1) b rest e
      (fun j hj => by
        obtain ⟨out2, hout2⟩ := hok (j + 1) (by simpa using Nat.succ_lt_succ hj)
        refine ⟨out2, ?_⟩
        rw [show k + 1 + j = k + (j + 1) from by omega]
        simpa [List.getD_cons_succ] using hout2)
      (by
        rw [show k + 1 + ps.length = k + (p :: ps).length from by
          simp [List.length_cons]; omega]
        exact herr)
    simp only [List.cons_append, round3, hout, List.append_eq, ih]

/-- C3 — round-3 error policy: an empty R2 slot is skipped without error
and contributes no response and no share, while for a present slot a
signature-decode failure, a deal-deserialization failure, a
response-production failure, or a response-marshalling failure each
aborts (the first failing slot's error propagates through `round3`), and
`serve` then returns that error having sent no R3. -/
theorem round3_error_policy :
    (∀ (env : Env) (Rc : Bytes) (i : Nat),
      processSlot env Rc i [] = .ok ([], [])) ∧
    (∀ (env : Env) (Rc : Bytes) (i : Nat) (b : Bytes) (e : String),
      b ≠ [] → env.decR2 i b = .error e →
      processSlot env Rc i b = .error e) ∧
    (∀ (env : Env) (Rc : Bytes) (i : Nat) (b : Bytes) (e : String)
      (r2i : R2), b ≠ [] → env.decR2 i b = .ok r2i →
      env.unmarshalDeal r2i.Deal = .error e →
      processSlot env Rc i b = .error e) ∧
    (∀ (env : Env) (i : Nat) (deal : Bytes) (k : Nat) (e : String)
      (rest : List Nat), env.produceResponse deal k = .error e →
      processShares env i deal k (env.self :: rest) = .error e) ∧
    (∀ (env : Env) (i : Nat) (deal : Bytes) (k : Nat) (e : String)
      (rest : List Nat) (share resp : Bytes),
      env.produceResponse deal k = .ok (share, resp) →
      env.marshalResp resp = .error e →
      processShares env i deal k (env.self :: rest) = .error e) ∧
    (∀ (env : Env) (Rc : Bytes) (k : Nat) (pre : List Bytes) (b : Bytes)
      (rest : List Bytes) (e : String),
      (∀ j, j < pre.length → ∃ out,
        processSlot env Rc (k + j) (pre.getD j []) = .ok out) →
      processSlot env Rc (k + pre.length) b = .error e →
      round3 env Rc k (pre ++ b :: rest) = .error e) ∧
    (∀ (env : Env) (conn : Conn) (m1 m2 m3 b1 b2 dealb : Bytes)
      (i1 : I1) (i2 : I2) (i3 : I3) (e : String),
      connRecv conn 0 = .ok m1 → env.decI1 m1 = .ok i1 →
      env.encR1 ⟨env.hashSum env.Rs⟩ = .ok b1 → conn.sendErr 0 = none →
      connRecv conn 1 = .ok m2 → env.decI2 m2 = .ok i2 →
      env.hashSum i2.Rc = i1.HRc →
      env.makeDeal ((dealerSel env i2.Rc).map
        (fun j => env.srvpub.getD j [])) = .ok dealb →
      env.encR2 ⟨env.Rs, dealb⟩ = .ok b2 → conn.sendErr 1 = none →
      connRecv conn 2 = .ok m3 → env.decI3 m3 = .ok i3 →
      i3.R2s.length = env.srvpub.length →
      round3 env i2.Rc 0 i3.R2s = .error e →
      serve env conn =
        ⟨[Event.recvI1 i1, Event.sendR1 ⟨env.hashSum env.Rs⟩,
          Event.recvI2 i2, Event.sendR2 ⟨env.Rs, dealb⟩, Event.recvI3 i3],
          some e⟩) := by
  refine ⟨fun env Rc i => rfl, ?_, ?_, ?_, ?_,
    fun env Rc k pre b rest e h1 h2 =>
      round3_err_propagation env Rc pre k b rest e h1 h2, ?_⟩
  · intro env Rc i b e hb hd
    unfold processSlot
    rw [if_neg (fun hc => hb (List.length_eq_zero.mp hc))]
    simp only [hd]
  · intro env Rc i b e r2i hb hd hu
    unfold processSlot
    rw [if_neg (fun hc => hb (List.length_eq_zero.mp hc))]
    simp only [hd, hu]
  · intro env i deal k e rest hp
    simp only [processShares, if_true, hp]
  · intro env i deal k e rest share resp hp hm
    simp only [processShares, if_true, hp, hm]
  · intro env conn m1 m2 m3 b1 b2 dealb i1 i2 i3 e h0 h1 h2 h3 h4 h5 h6 h7
      h8 h9 h10 h11 h12 h13
    unfold serve stage1 stage3 stage5
    simp only [h0, h1, h2, h3, h4, h5]
    rw [if_pos h6]
    simp only [h7, h8, h9, h10, h11]
    rw [if_pos h12]
    simp only [h13]

/-- Witness for C3: a present slot whose signature decode fails aborts
with that error. -/
theorem round3_error_policy_witness :
    ([4] : Bytes) ≠ [] ∧
      processSlot toyEnvDecFail [7] 0 [4] = .error "signature decode failed" :=
  ⟨by decide,
    round3_error_policy.2.1 toyEnvDecFail [7] 0 [4] "signature decode failed"
      (by decide) rfl⟩

theorem serve_reach_stage7 (env : Env) (conn : Conn)
    {m1 m2 m3 b1 b2 b3 dealb : Bytes} {i1 : I1} {i2 : I2} {i3 : I3}
    {resps : List R3Resp} {shares : List R4Share}
    (h0 : connRecv conn 0 = .ok m1) (h1 : env.decI1 m1 = .ok i1)
    (h2 : env.encR1 ⟨env.hashSum env.Rs⟩ = .ok b1)
    (h3 : conn.sendErr 0 = none)
    (h4 : connRecv conn 1 = .ok m2) (h5 : env.decI2 m2 = .ok i2)
    (h6 : env.hashSum i2.Rc = i1.HRc)
    (h7 : env.makeDeal ((dealerSel env i2.Rc).map
      (fun j => env.srvpub.getD j [])) = .ok dealb)
    (h8 : env.encR2 ⟨env.Rs, dealb⟩ = .ok b2) (h9 : conn.sendErr 1 = none)
    (h10 : connRecv conn 2 = .ok m3) (h11 : env.decI3 m3 = .ok i3)
    (h12 : i3.R2s.length = env.srvpub.length)
    (h13 : round3 env i2.Rc 0 i3.R2s = .ok (resps, shares))
    (h14 : env.encR3 ⟨resps⟩ = .ok b3) (h15 : conn.sendErr 2 = none) :
    serve env conn =
      ⟨Event.recvI1 i1 :: Event.sendR1 ⟨env.hashSum env.Rs⟩ ::
        Event.recvI2 i2 :: Event.sendR2 ⟨env.Rs, dealb⟩ ::
        Event.recvI3 i3 :: Event.sendR3 ⟨resps⟩ ::
        (stage7 env conn i3.R2s shares).events,
        (stage7 env conn i3.R2s shares).err⟩ := by
  unfold serve stage1 stage3 stage5
  simp only [h0, h1, h2, h3, h4, h5]
  rw [if_pos h6]
  simp only [h7, h8, h9, h10, h11]
  rw [if_pos h12]
  simp only [h13, h14, h15]

theorem subsetCheck_none_iff : ∀ (l4 l3 : List Bytes),
    subsetCheck l4 l3 = none ↔
      ∀ i, i < l4.length → i < l3.length →
        (l4.getD i []).length = 0 ∨ l4.getD i [] = l3.getD i []
  | [], l3 => by simp [subsetCheck]
  | a :: as, [] => by simp [subsetCheck]
  | a :: as, b :: bs => by
    simp only [subsetCheck]
    split
    · next hv =>
      constructor
      · intro hc
        cases hc
      · intro hall
        rcases hall 0 (by simp) (by simp) with h | h
        · simp only [List.getD_cons_zero] at h
          exact absurd h hv.1
        · simp only [List.getD_cons_zero] at h
          exact absurd h hv.2
    · next hv =>
      rw [subsetCheck_none_iff as bs]
      constructor
      · intro h i hi4 hi3
        cases i with
        | zero =>
          simp only [List.getD_cons_zero]
          by_cases hz : a.length = 0
          · exact .inl hz
          · right
            by_contra hne
            exact hv ⟨hz, hne⟩
        | succ i =>
          simp only [List.getD_cons_succ]
          exact h i (by simpa using hi4) (by simpa using hi3)
      · intro h i hi4 hi3
        have := h (i + 1) (by simpa using Nat.succ_lt_succ hi4)
          (by simpa using Nat.succ_lt_succ hi3)
        simpa [List.getD_cons_succ] using this

theorem subsetCheck_ne_none : ∀ (l4 l3 : List Bytes) (e : String),
    subsetCheck l4 l3 = some e → e = "R2 set in I4 not a subset of I3"
  | [], l3, e => by simp [subsetCheck]
  | a :: as, [], e => by simp [subsetCheck]
  | a :: as, b :: bs, e => by
    simp only [subsetCheck]
    split
    · intro h
      injection h with h
      exact h.symm
    · exact subsetCheck_ne_none as bs e

theorem subsetCheck_self : ∀ l : List Bytes, subsetCheck l l = none
  | [] => rfl
  | a :: as => by
    simp only [subsetCheck]
    rw [if_neg (by simp)]
    exact subsetCheck_self as

theorem subsetCheck_some_of_viol (l4 l3 : List Bytes) (i : Nat)
    (hi4 : i < l4.length) (hi3 : i < l3.length)
    (hnz : (l4.getD i []).length ≠ 0) (hne : l4.getD i [] ≠ l3.getD i []) :
    subsetCheck l4 l3 = some "R2 set in I4 not a subset of I3" := by
  cases hc : subsetCheck l4 l3 with
  | none =>
    rcases (subsetCheck_none_iff l4 l3).mp hc i hi4 hi3 with h | h
    · exact absurd h hnz
    · exact absurd h hne
  | some e => rw [subsetCheck_ne_none l4 l3 e hc]

/-- C2 — I4 subset enforcement: once a session has legitimately reached
I4 (roster-length array), any roster slot whose I4 entry is non-empty
and not byte-identical to the I3 entry makes `serve` return
"R2 set in I4 not a subset of I3" with no R4 handed to the transport;
conversely, if an R4 is sent then every populated I4 slot was
byte-identical to the corresponding I3 slot. -/
theorem serve_i4_subset_enforcement (env : Env) (conn : Conn)
    {m1 m2 m3 m4 b1 b2 b3 dealb : Bytes} {i1 : I1} {i2 : I2} {i3 : I3}
    {i4 : I4} {resps : List R3Resp} {shares : List R4Share}
    (h0 : connRecv conn 0 = .ok m1) (h1 : env.decI1 m1 = .ok i1)
    (h2 : env.encR1 ⟨env.hashSum env.Rs⟩ = .ok b1)
    (h3 : conn.sendErr 0 = none)
    (h4 : connRecv conn 1 = .ok m2) (h5 : env.decI2 m2 = .ok i2)
    (h6 : env.hashSum i2.Rc = i1.HRc)
    (h7 : env.makeDeal ((dealerSel env i2.Rc).map
      (fun j => env.srvpub.getD j [])) = .ok dealb)
    (h8 : env.encR2 ⟨env.Rs, dealb⟩ = .ok b2) (h9 : conn.sendErr 1 = none)
    (h10 : connRecv conn 2 = .ok m3) (h11 : env.decI3 m3 = .ok i3)
    (h12 : i3.R2s.length = env.srvpub.length)
    (h13 : round3 env i2.Rc 0 i3.R2s = .ok (resps, shares))
    (h14 : env.encR3 ⟨resps⟩ = .ok b3) (h15 : conn.sendErr 2 = none)
    (h16 : connRecv conn 3 = .ok m4) (h17 : env.decI4 m4 = .ok i4)
    (h18 : i4.R2s.length = env.srvpub.length) :
    ((∃ i, i < env.srvpub.length ∧ (i4.R2s.getD i []).length ≠ 0 ∧
        i4.R2s.getD i [] ≠ i3.R2s.getD i []) →
      serve env conn =
        ⟨[Event.recvI1 i1, Event.sendR1 ⟨env.hashSum env.Rs⟩,
          Event.recvI2 i2, Event.sendR2 ⟨env.Rs, dealb⟩,
          Event.recvI3 i3, Event.sendR3 ⟨resps⟩, Event.recvI4 i4],
          some "R2 set in I4 not a subset of I3"⟩) ∧
    (∀ r4p : R4, Event.sendR4 r4p ∈ (serve env conn).events →
      ∀ i, i < env.srvpub.length →
        (i4.R2s.getD i []).length = 0 ∨
          i4.R2s.getD i [] = i3.R2s.getD i []) := by
  have hreach := serve_reach_stage7 env conn h0 h1 h2 h3 h4 h5 h6 h7 h8 h9
    h10 h11 h12 h13 h14 h15
  constructor
  · rintro ⟨i, hi, hnz, hne⟩
    have hsc := subsetCheck_some_of_viol i4.R2s i3.R2s i (by omega) (by omega)
      hnz hne
    have hst : stage7 env conn i3.R2s shares =
        ⟨[Event.recvI4 i4], some "R2 set in I4 not a subset of I3"⟩ := by
      unfold stage7
      simp only [h16, h17]
      rw [if_pos h18]
      simp only [hsc]
    rw [hreach, hst]
  · intro r4p hmem i hi
    by_cases hz : (i4.R2s.getD i []).length = 0
    · exact .inl hz
    · by_cases heq : i4.R2s.getD i [] = i3.R2s.getD i []
      · exact .inr heq
      · exfalso
        have hsc := subsetCheck_some_of_viol i4.R2s i3.R2s i (by omega)
          (by omega) hz heq
        have hst : stage7 env conn i3.R2s shares =
            ⟨[Event.recvI4 i4], some "R2 set in I4 not a subset of I3"⟩ := by
          unfold stage7
          simp only [h16, h17]
          rw [if_pos h18]
          simp only [hsc]
        rw [hreach, hst] at hmem
        simp at hmem

/-- Witness for C2: the honest toy session whose I4 slot 0 is changed
to `[9]` aborts with the subset error and sends no R4. -/
theorem serve_i4_subset_enforcement_witness :
    serve toyEnv connViol =
      ⟨[.recvI1 ⟨[7]⟩, .sendR1 ⟨[5]⟩, .recvI2 ⟨[7]⟩, .sendR2 ⟨[5], [7]⟩,
        .recvI3 ⟨[[4], [], []]⟩, .sendR3 ⟨[⟨0, 0, [0]⟩]⟩,
        .recvI4 ⟨[[9], [], []]⟩],
        some "R2 set in I4 not a subset of I3"⟩ :=
  (serve_i4_subset_enforcement toyEnv connViol rfl rfl rfl rfl rfl rfl rfl
    rfl rfl rfl rfl rfl rfl rfl rfl rfl rfl rfl rfl).1
    ⟨0, by decide, by decide, by decide⟩

theorem serve_full_run (env : Env) (conn : Conn)
    {m1 m2 m3 m4 b1 b2 b3 b4 dealb : Bytes} {i1 : I1} {i2 : I2} {i3 : I3}
    {i4 : I4} {resps : List R3Resp} {shares : List R4Share}
    (h0 : connRecv conn 0 = .ok m1) (h1 : env.decI1 m1 = .ok i1)
    (h2 : env.encR1 ⟨env.hashSum env.Rs⟩ = .ok b1)
    (h3 : conn.sendErr 0 = none)
    (h4 : connRecv conn 1 = .ok m2) (h5 : env.decI2 m2 = .ok i2)
    (h6 : env.hashSum i2.Rc = i1.HRc)
    (h7 : env.makeDeal ((dealerSel env i2.Rc).map
      (fun j => env.srvpub.getD j [])) = .ok dealb)
    (h8 : env.encR2 ⟨env.Rs, dealb⟩ = .ok b2) (h9 : conn.sendErr 1 = none)
    (h10 : connRecv conn 2 = .ok m3) (h11 : env.decI3 m3 = .ok i3)
    (h12 : i3.R2s.length = env.srvpub.length)
    (h13 : round3 env i2.Rc 0 i3.R2s = .ok (resps, shares))
    (h14 : env.encR3 ⟨resps⟩ = .ok b3) (h15 : conn.sendErr 2 = none)
    (h16 : connRecv conn 3 = .ok m4) (h17 : env.decI4 m4 = .ok i4)
    (h18 : i4.R2s.length = env.srvpub.length)
    (h19 : subsetCheck i4.R2s i3.R2s = none)
    (h20 : env.encR4 ⟨shares⟩ = .ok b4) :
    serve env conn =
      ⟨[Event.recvI1 i1, Event.sendR1 ⟨env.hashSum env.Rs⟩,
        Event.recvI2 i2, Event.sendR2 ⟨env.Rs, dealb⟩,
        Event.recvI3 i3, Event.sendR3 ⟨resps⟩,
        Event.recvI4 i4, Event.sendR4 ⟨shares⟩], conn.sendErr 3⟩ := by
  have hst : stage7 env conn i3.R2s shares =
      ⟨[Event.recvI4 i4, Event.sendR4 ⟨shares⟩], conn.sendErr 3⟩ := by
    unfold stage7 stage8
    simp only [h16, h17]
    rw [if_pos h18]
    simp only [h19, h20]
  rw [serve_reach_stage7 env conn h0 h1 h2 h3 h4 h5 h6 h7 h8 h9 h10 h11 h12
    h13 h14 h15, hst]

theorem processShares_pairs : ∀ (env : Env) (i : Nat) (deal : Bytes)
    (k : Nat) (sel : List Nat) (rs : List R3Resp) (ss : List R4Share),
    processShares env i deal k sel = .ok (rs, ss) →
    ss.map (fun s => (s.Dealer, s.Index)) =
      (selfPositions env k sel).map (fun p => (i, p))
  | env, i, deal, k, [], rs, ss, h => by
    simp only [processShares] at h
    injection h with h
    injection h with h1 h2
    subst h1
    subst h2
    simp [selfPositions]
  | env, i, deal, k, selk :: rest, rs, ss, h => by
    simp only [processShares] at h
    by_cases hself : selk = env.self
    · rw [if_pos hself] at h
      cases hp : env.produceResponse deal k with
      | error e2 =>
        simp only [hp] at h
        exact Except.noConfusion h
      | ok pr =>
        obtain ⟨share, resp⟩ := pr
        simp only [hp] at h
        cases hm : env.marshalResp resp with
        | error e2 =>
          simp only [hm] at h
          exact Except.noConfusion h
        | ok respb =>
          simp only [hm] at h
          cases hrec : processShares env i deal (k + 1) rest with
          | error e2 =>
            simp only [hrec] at h
            exact Except.noConfusion h
          | ok out =>
            obtain ⟨rs2, ss2⟩ := out
            simp only [hrec] at h
            injection h with h
            injection h with h1 h2
            subst h1
            subst h2
            have ih := processShares_pairs env i deal (k + 1) rest rs2 ss2 hrec
            simp only [List.map_cons, ih, selfPositions, if_pos hself]
    · rw [if_neg hself] at h
      have ih := processShares_pairs env i deal (k + 1) rest rs ss h
      rw [ih]
      simp only [selfPositions, if_neg hself]

theorem round3_pairs : ∀ (env : Env) (Rc : Bytes) (k : Nat)
    (slots : List Bytes) (rs : List R3Resp) (ss : List R4Share),
    round3 env Rc k slots = .ok (rs, ss) →
    ss.map (fun s => (s.Dealer, s.Index)) = qualPairs env Rc k slots
  | env, Rc, k, [], rs, ss, h => by
    simp only [round3] at h
    injection h with h
    injection h with h1 h2
    subst h1
    subst h2
    simp [qualPairs]
  | env, Rc, k, b :: rest, rs, ss, h => by
    simp only [round3] at h
    cases hps : processSlot env Rc k b with
    | error e =>
      simp only [hps] at h
      exact Except.noConfusion h
    | ok out =>
      obtain ⟨rs1, ss1⟩ := out
      simp only [hps] at h
      cases hrec : round3 env Rc (k + 1) rest with
      | error e =>
        simp only [hrec] at h
        exact Except.noConfusion h
      | ok out2 =>
        obtain ⟨rs2, ss2⟩ := out2
        simp only [hrec] at h
        injection h with h
        injection h with h1 h2
        subst h1
        subst h2
        have ih := round3_pairs env Rc (k + 1) rest rs2 ss2 hrec
        rw [List.map_append, ih]
        simp only [qualPairs]
        congr 1
        unfold processSlot at hps
        by_cases hb : b.length = 0
        · rw [if_pos hb] at hps
          injection hps with hps
          injection hps with hp1 hp2
          rw [if_pos hb, ← hp2]
          simp
        · rw [if_neg hb] at hps
          rw [if_neg hb]
          cases hd : env.decR2 k b with
          | error e =>
            simp only [hd] at hps
            exact Except.noConfusion hps
          | ok r2i =>
            simp only [hd] at hps
            cases hu : env.unmarshalDeal r2i.Deal with
            | error e =>
              simp only [hu] at hps
              exact Except.noConfusion hps
            | ok deal =>
              simp only [hu] at hps
              exact processShares_pairs env k deal 0
                (insurerSel env Rc r2i.Rs) rs1 ss1 hps

/-- C4 — unconditional reveal: when a session completes, the R4 handed to
the transport carries exactly the share list retained by round-3
processing of the received I3 — whose (dealer, share-index) pairs are
exactly the pairs (i, k) with a present I3 slot i whose selection places
this server at position k — computed from I3 alone, with no filtering by
which slots are populated in I4. -/
theorem serve_r4_unconditional_reveal (env : Env) (conn : Conn)
    {m1 m2 m3 m4 b1 b2 b3 b4 dealb : Bytes} {i1 : I1} {i2 : I2} {i3 : I3}
    {i4 : I4} {resps : List R3Resp} {shares : List R4Share}
    (h0 : connRecv conn 0 = .ok m1) (h1 : env.decI1 m1 = .ok i1)
    (h2 : env.encR1 ⟨env.hashSum env.Rs⟩ = .ok b1)
    (h3 : conn.sendErr 0 = none)
    (h4 : connRecv conn 1 = .ok m2) (h5 : env.decI2 m2 = .ok i2)
    (h6 : env.hashSum i2.Rc = i1.HRc)
    (h7 : env.makeDeal ((dealerSel env i2.Rc).map
      (fun j => env.srvpub.getD j [])) = .ok dealb)
    (h8 : env.encR2 ⟨env.Rs, dealb⟩ = .ok b2) (h9 : conn.sendErr 1 = none)
    (h10 : connRecv conn 2 = .ok m3) (h11 : env.decI3 m3 = .ok i3)
    (h12 : i3.R2s.length = env.srvpub.length)
    (h13 : round3 env i2.Rc 0 i3.R2s = .ok (resps, shares))
    (h14 : env.encR3 ⟨resps⟩ = .ok b3) (h15 : conn.sendErr 2 = none)
    (h16 : connRecv conn 3 = .ok m4) (h17 : env.decI4 m4 = .ok i4)
    (h18 : i4.R2s.length = env.srvpub.length)
    (h19 : subsetCheck i4.R2s i3.R2s = none)
    (h20 : env.encR4 ⟨shares⟩ = .ok b4) :
    serve env conn =
      ⟨[Event.recvI1 i1, Event.sendR1 ⟨env.hashSum env.Rs⟩,
        Event.recvI2 i2, Event.sendR2 ⟨env.Rs, dealb⟩,
        Event.recvI3 i3, Event.sendR3 ⟨resps⟩,
        Event.recvI4 i4, Event.sendR4 ⟨shares⟩], conn.sendErr 3⟩ ∧
    shares.map (fun s => (s.Dealer, s.Index)) =
      qualPairs env i2.Rc 0 i3.R2s :=
  ⟨serve_full_run env conn h0 h1 h2 h3 h4 h5 h6 h7 h8 h9 h10 h11 h12 h13
    h14 h15 h16 h17 h18 h19 h20,
    round3_pairs env i2.Rc 0 i3.R2s resps shares h13⟩

/-- Witness for C4: the honest toy session reveals exactly the one share
retained in round 3. -/
theorem serve_r4_unconditional_reveal_witness :
    serve toyEnv toyConn =
      ⟨[.recvI1 ⟨[7]⟩, .sendR1 ⟨[5]⟩, .recvI2 ⟨[7]⟩, .sendR2 ⟨[5], [7]⟩,
        .recvI3 ⟨[[4], [], []]⟩, .sendR3 ⟨[⟨0, 0, [0]⟩]⟩,
        .recvI4 ⟨[[4], [], []]⟩, .sendR4 ⟨[⟨0, 0, [4, 0]⟩]⟩], none⟩ :=
  (serve_r4_unconditional_reveal toyEnv toyConn rfl rfl rfl rfl rfl rfl rfl
    rfl rfl rfl rfl rfl rfl rfl rfl rfl rfl rfl rfl rfl rfl).1

theorem selfPositions_ne_nil (env : Env) :
    ∀ (k : Nat) (sel : List Nat), env.self ∈ sel →
      selfPositions env k sel ≠ []
  | k, [], h => absurd h (List.not_mem_nil _)
  | k, s :: rest, h => by
    simp only [selfPositions]
    by_cases hs : s = env.self
    · rw [if_pos hs]
      simp
    · rw [if_neg hs]
      apply selfPositions_ne_nil env (k + 1) rest
      rcases List.mem_cons.mp h with h2 | h2
      · exact absurd h2.symm hs
      · exact h2

theorem qualPairs_ne_nil (env : Env) (Rc : Bytes) :
    ∀ (k : Nat) (slots : List Bytes) (i : Nat) (r2i : R2),
      i < slots.length → (slots.getD i []).length ≠ 0 →
      env.decR2 (k + i) (slots.getD i []) = .ok r2i →
      env.self ∈ insurerSel env Rc r2i.Rs →
      qualPairs env Rc k slots ≠ []
  | k, [], i, r2i, hi, _, _, _ => by simp at hi
  | k, b :: rest, 0, r2i, hi, hnz, hd, hsel => by
    simp only [List.getD_cons_zero] at hnz hd
    simp only [qualPairs]
    rw [if_neg hnz]
    rw [Nat.add_zero] at hd
    simp only [hd]
    intro hc
    rcases List.append_eq_nil.mp hc with ⟨hc1, hc2⟩
    exact selfPositions_ne_nil env 0 (insurerSel env Rc r2i.Rs) hsel
      (List.map_eq_nil_iff.mp hc1)
  | k, b :: rest, i + 1, r2i, hi, hnz, hd, hsel => by
    simp only [List.getD_cons_succ] at hnz hd
    simp only [qualPairs]
    intro hc
    rcases List.append_eq_nil.mp hc with ⟨hc1, hc2⟩
    exact qualPairs_ne_nil env Rc (k + 1) rest i r2i
      (by simp only [List.length_cons] at hi; omega) hnz
      (by rw [show k + 1 + i = k + (i + 1) from by omega]; exact hd)
      hsel hc2

/-- C7 (amended) — honest-session completion: when every participant is
faithful (all messages decode, the revealed client seed matches its
commitment, every present deal processes without error, I4 repeats I3,
and all transport operations succeed), `serve` finishes the whole
session and returns no error; and the R4 it sends is non-empty provided
at least one present dealer's insurer selection includes this server's
index. -/
theorem serve_honest_completion (env : Env) (conn : Conn)
    {m1 m2 m3 m4 b1 b2 b3 b4 dealb : Bytes} {i1 : I1} {i2 : I2} {i3 : I3}
    {i4 : I4} {resps : List R3Resp} {shares : List R4Share}
    (h0 : connRecv conn 0 = .ok m1) (h1 : env.decI1 m1 = .ok i1)
    (h2 : env.encR1 ⟨env.hashSum env.Rs⟩ = .ok b1)
    (h3 : conn.sendErr 0 = none)
    (h4 : connRecv conn 1 = .ok m2) (h5 : env.decI2 m2 = .ok i2)
    (h6 : env.hashSum i2.Rc = i1.HRc)
    (h7 : env.makeDeal ((dealerSel env i2.Rc).map
      (fun j => env.srvpub.getD j [])) = .ok dealb)
    (h8 : env.encR2 ⟨env.Rs, dealb⟩ = .ok b2) (h9 : conn.sendErr 1 = none)
    (h10 : connRecv conn 2 = .ok m3) (h11 : env.decI3 m3 = .ok i3)
    (h12 : i3.R2s.length = env.srvpub.length)
    (h13 : round3 env i2.Rc 0 i3.R2s = .ok (resps, shares))
    (h14 : env.encR3 ⟨resps⟩ = .ok b3) (h15 : conn.sendErr 2 = none)
    (h16 : connRecv conn 3 = .ok m4) (h17 : env.decI4 m4 = .ok i4)
    (hI4 : i4.R2s = i3.R2s)
    (h20 : env.encR4 ⟨shares⟩ = .ok b4) (h21 : conn.sendErr 3 = none)
    (hsel : ∃ i r2i, i < i3.R2s.length ∧ (i3.R2s.getD i []).length ≠ 0 ∧
      env.decR2 i (i3.R2s.getD i []) = .ok r2i ∧
      env.self ∈ insurerSel env i2.Rc r2i.Rs) :
    serve env conn =
      ⟨[Event.recvI1 i1, Event.sendR1 ⟨env.hashSum env.Rs⟩,
        Event.recvI2 i2, Event.sendR2 ⟨env.Rs, dealb⟩,
        Event.recvI3 i3, Event.sendR3 ⟨resps⟩,
        Event.recvI4 i4, Event.sendR4 ⟨shares⟩], none⟩ ∧
    shares ≠ [] := by
  have h18 : i4.R2s.length = env.srvpub.length := by rw [hI4]; exact h12
  have h19 : subsetCheck i4.R2s i3.R2s = none := by
    rw [hI4]
    exact subsetCheck_self i3.R2s
  have hfull := serve_full_run env conn h0 h1 h2 h3 h4 h5 h6 h7 h8 h9 h10
    h11 h12 h13 h14 h15 h16 h17 h18 h19 h20
  constructor
  · rw [hfull, h21]
  · obtain ⟨i, r2i, hi, hnz, hd, hs⟩ := hsel
    have hpairs := round3_pairs env i2.Rc 0 i3.R2s resps shares h13
    have hqp := qualPairs_ne_nil env i2.Rc 0 i3.R2s i r2i hi hnz
      (by simpa using hd) hs
    intro hc
    subst hc
    simp only [List.map_nil] at hpairs
    exact hqp hpairs.symm

/-- Counterexample to C7 as stated: an entirely honest four-server
session with N = 4 ≥ n = 3 ≥ r = 2 ≥ t = 2 ≥ 1 in which `serve`
completes the whole protocol without error, yet the R4 it sends is
empty — the (seed-dependent, spec-conformant) insurer selection never
places server 3, so it retains no share to reveal. -/
theorem serve_honest_completion_counterexample :
    serve envNoSel connN4 =
      ⟨[.recvI1 ⟨[7]⟩, .sendR1 ⟨[5]⟩, .recvI2 ⟨[7]⟩, .sendR2 ⟨[5], [7]⟩,
        .recvI3 ⟨[[4], [], [], []]⟩, .sendR3 ⟨[]⟩,
        .recvI4 ⟨[[4], [], [], []]⟩, .sendR4 ⟨[]⟩], none⟩ := by
  decide

/-- Witness for the amended C7: the honest three-server toy session
completes with a non-empty R4. -/
theorem serve_honest_completion_witness :
    serve toyEnv toyConn =
      ⟨[.recvI1 ⟨[7]⟩, .sendR1 ⟨[5]⟩, .recvI2 ⟨[7]⟩, .sendR2 ⟨[5], [7]⟩,
        .recvI3 ⟨[[4], [], []]⟩, .sendR3 ⟨[⟨0, 0, [0]⟩]⟩,
        .recvI4 ⟨[[4], [], []]⟩, .sendR4 ⟨[⟨0, 0, [4, 0]⟩]⟩], none⟩ ∧
      ([⟨0, 0, [4, 0]⟩] : List R4Share) ≠ [] :=
  serve_honest_completion toyEnv toyConn rfl rfl rfl rfl rfl rfl rfl rfl
    rfl rfl rfl rfl rfl rfl rfl rfl rfl rfl rfl rfl rfl
    ⟨0, ⟨[4], [4]⟩, by decide, by decide, rfl, by decide⟩
